import Mathlib

/-!
Verification of the mock-ground-station radio stack specification against the
flight-software source (`lib/pysquared`).  The development shallowly embeds:

* the binary codec (`binary_encoder.py`: `BinaryEncoder`, `BinaryDecoder`),
* the packet framer (`hardware/radio/packetizer/packet_manager.py`:
  `PacketManager`),
* the command protocol (`cdh.py`: `CommandDataHandler.listen_for_commands`),
* the radio-manager error boundary (`hardware/radio/manager/base.py` and
  `rfm9x.py`).

Python byte strings are modelled as `List Nat` (each element a byte value),
Python ints as `Int`/`Nat`, fallible operations as `Option`/`Except`.
-/

namespace GroundStation

/-! ## Byte-level primitives

`int.to_bytes(n, "big")` / `int.from_bytes(b, "big")` and the big-endian
`struct` formats used throughout the source. -/

/-- Big-endian encoding of `v` into exactly `n` bytes
(`v.to_bytes(n, "big")`; the caller guarantees `v < 256 ^ n`). -/
def toBytesBE : Nat → Nat → List Nat
  | 0, _ => []
  | n + 1, v => toBytesBE n (v / 256) ++ [v % 256]

/-- Big-endian decoding of a byte list (`int.from_bytes(b, "big")`). -/
def fromBytesBE (bs : List Nat) : Nat :=
  bs.foldl (fun acc b => acc * 256 + b) 0

theorem toBytesBE_length (n v : Nat) : (toBytesBE n v).length = n := by
  induction n generalizing v with
  | zero => rfl
  | succ n ih => simp [toBytesBE, ih]

theorem pow256_eq (n : Nat) : (256 : Nat) ^ n = 2 ^ (8 * n) := by
  rw [show (256 : Nat) = 2 ^ 8 from rfl, ← pow_mul]

theorem fromBytesBE_append (a b : List Nat) :
    fromBytesBE (a ++ b) = b.foldl (fun acc x => acc * 256 + x) (fromBytesBE a) := by
  simp [fromBytesBE, List.foldl_append]

theorem fromBytesBE_toBytesBE (n v : Nat) (h : v < 256 ^ n) :
    fromBytesBE (toBytesBE n v) = v := by
  induction n generalizing v with
  | zero =>
    interval_cases v
    rfl
  | succ n ih =>
    have hdiv : v / 256 < 256 ^ n := by
      rw [Nat.div_lt_iff_lt_mul (by norm_num)]
      calc v < 256 ^ (n + 1) := h
        _ = 256 ^ n * 256 := by ring
    rw [toBytesBE, fromBytesBE_append, ih _ hdiv]
    simp only [List.foldl_cons, List.foldl_nil]
    omega

theorem toBytesBE_one (v : Nat) (h : v < 256) : toBytesBE 1 v = [v] := by
  simp [toBytesBE, Nat.mod_eq_of_lt h]

theorem toBytesBE_two (v : Nat) (h : v < 65536) :
    toBytesBE 2 v = [v / 256, v % 256] := by
  have h1 : v / 256 < 256 := by omega
  simp [toBytesBE, Nat.mod_eq_of_lt h1, Nat.div_div_eq_div_mul]

theorem fromBytesBE_two (a b : Nat) : fromBytesBE [a, b] = a * 256 + b := by
  simp [fromBytesBE]

/-! ### Signed big-endian integers (`struct` formats `b/h/i/q` vs `B/H/I/Q`)

`struct.pack` of a signed `n`-byte format stores the two's-complement
representation; `struct.unpack` reads it back. -/

/-- Two's-complement big-endian encoding of a signed integer into `n` bytes
(`struct.pack` of formats `>b`, `>h`, `>i`, `>q`; the packer rejects values
outside the signed range, which `packIntPayload` below models). -/
def encSignedBE (n : Nat) (v : Int) : List Nat :=
  toBytesBE n (v % (2 ^ (8 * n) : Int)).toNat

/-- Signed big-endian decoding of an `n`-byte payload
(`struct.unpack` of formats `>b`, `>h`, `>i`, `>q`). -/
def decSignedBE (n : Nat) (bs : List Nat) : Int :=
  let u := fromBytesBE bs
  if (u : Int) < 2 ^ (8 * n - 1) then (u : Int) else (u : Int) - 2 ^ (8 * n)

theorem decSignedBE_encSignedBE (n : Nat) (v : Int) (hn : 0 < n)
    (h1 : -(2 ^ (8 * n - 1)) ≤ v) (h2 : v < 2 ^ (8 * n - 1)) :
    decSignedBE n (encSignedBE n v) = v := by
  have hsplit : 8 * n - 1 + 1 = 8 * n := by omega
  have hM : (2 : Int) ^ (8 * n) = 2 ^ (8 * n - 1) * 2 := by
    rw [← pow_succ, hsplit]
  have hMpos : (0 : Int) < 2 ^ (8 * n) := by positivity
  have hmod_nonneg : 0 ≤ v % (2 ^ (8 * n) : Int) := Int.emod_nonneg v (by omega)
  have hmod_lt : v % (2 ^ (8 * n) : Int) < 2 ^ (8 * n) := Int.emod_lt_of_pos v hMpos
  have hchar : v % (2 ^ (8 * n) : Int) = if 0 ≤ v then v else v + 2 ^ (8 * n) := by
    split
    · exact Int.emod_eq_of_lt (by assumption) (by omega)
    · rw [show v % (2 ^ (8 * n) : Int) = (v + 2 ^ (8 * n)) % (2 ^ (8 * n)) by
        rw [show v + (2 : Int) ^ (8 * n) = v + 2 ^ (8 * n) * 1 by ring]
        rw [@Int.add_mul_emod_self_left v (2 ^ (8 * n)) 1]]
      exact Int.emod_eq_of_lt (by omega) (by omega)
  have hnat : ((v % (2 ^ (8 * n) : Int)).toNat : Int) = v % (2 ^ (8 * n) : Int) :=
    Int.toNat_of_nonneg hmod_nonneg
  have hlt256 : (v % (2 ^ (8 * n) : Int)).toNat < 256 ^ n := by
    have : ((v % (2 ^ (8 * n) : Int)).toNat : Int) < 2 ^ (8 * n) := by omega
    have h256 : ((256 ^ n : Nat) : Int) = 2 ^ (8 * n) := by
      push_cast [pow256_eq]
      rfl
    omega
  rw [encSignedBE, decSignedBE]
  rw [fromBytesBE_toBytesBE _ _ hlt256]
  split <;> omega

theorem fromBytesBE_toBytesBE_int (n : Nat) (v : Int) (h1 : 0 ≤ v)
    (h2 : v < (2 ^ (8 * n) : Int)) :
    (fromBytesBE (toBytesBE n v.toNat) : Int) = v := by
  have h256 : ((256 ^ n : Nat) : Int) = 2 ^ (8 * n) := by
    push_cast [pow256_eq]
    rfl
  have hlt : v.toNat < 256 ^ n := by omega
  rw [fromBytesBE_toBytesBE _ _ hlt]
  omega

/-! ## UTF-8

`str.encode("utf-8")` / `bytes.decode("utf-8")`.  A Python string is modelled
as its list of Unicode code points (`List Nat`).  The decoder below is the
strict UTF-8 decoder used by `bytes.decode("utf-8")` (RFC 3629): it rejects
stray continuation bytes, overlong forms, surrogate code points, code points
above U+10FFFF, lead bytes `0xF5`-`0xFF` and truncated sequences.  The source
relies on the Python runtime for this; it is the one external routine the
codec claims depend on. -/

/-- A code point Python's UTF-8 encoder accepts (not a surrogate, below
U+110000).  `str.encode("utf-8")` raises on surrogates. -/
def validCodepoint (c : Nat) : Bool :=
  decide (c < 0x110000) && !(decide (0xD800 ≤ c) && decide (c < 0xE000))

/-- UTF-8 encoding of one code point. -/
def utf8EncodeChar (c : Nat) : List Nat :=
  if c < 0x80 then [c]
  else if c < 0x800 then [0xC0 + c / 64, 0x80 + c % 64]
  else if c < 0x10000 then
    [0xE0 + c / 4096, 0x80 + c / 64 % 64, 0x80 + c % 64]
  else
    [0xF0 + c / 0x40000, 0x80 + c / 4096 % 64, 0x80 + c / 64 % 64, 0x80 + c % 64]

/-- `str.encode("utf-8")` on a list of code points. -/
def utf8Encode (cps : List Nat) : List Nat :=
  (cps.map utf8EncodeChar).flatten

/-- Whether a byte is a UTF-8 continuation byte (`0x80`-`0xBF`). -/
def isCont (b : Nat) : Bool := decide (0x80 ≤ b) && decide (b < 0xC0)

/-- Strict decoding of one UTF-8 sequence from the front of a byte list;
returns the code point and the remaining bytes, or `none` on malformed input
(where `bytes.decode("utf-8")` raises `UnicodeDecodeError`). -/
def utf8DecodeOne : List Nat → Option (Nat × List Nat)
  | [] => none
  | b :: rest =>
    if b < 0x80 then some (b, rest)
    else if b < 0xC2 then none
    else if b < 0xE0 then
      match rest with
      | b1 :: rest' =>
        if isCont b1 then some ((b - 0xC0) * 64 + (b1 - 0x80), rest') else none
      | [] => none
    else if b < 0xF0 then
      match rest with
      | b1 :: b2 :: rest' =>
        if isCont b1 && isCont b2 then
          if (b - 0xE0) * 4096 + (b1 - 0x80) * 64 + (b2 - 0x80) < 0x800
              || (decide (0xD800 ≤ (b - 0xE0) * 4096 + (b1 - 0x80) * 64 + (b2 - 0x80))
                  && decide ((b - 0xE0) * 4096 + (b1 - 0x80) * 64 + (b2 - 0x80) < 0xE000))
            then none
          else some ((b - 0xE0) * 4096 + (b1 - 0x80) * 64 + (b2 - 0x80), rest')
        else none
      | _ => none
    else if b < 0xF5 then
      match rest with
      | b1 :: b2 :: b3 :: rest' =>
        if isCont b1 && isCont b2 && isCont b3 then
          if (b - 0xF0) * 0x40000 + (b1 - 0x80) * 4096 + (b2 - 0x80) * 64 + (b3 - 0x80) < 0x10000
              || decide (0x110000 ≤ (b - 0xF0) * 0x40000 + (b1 - 0x80) * 4096
                          + (b2 - 0x80) * 64 + (b3 - 0x80))
            then none
          else some ((b - 0xF0) * 0x40000 + (b1 - 0x80) * 4096
                      + (b2 - 0x80) * 64 + (b3 - 0x80), rest')
        else none
      | _ => none
    else none

theorem utf8DecodeOne_length {l : List Nat} {c : Nat} {rest : List Nat}
    (h : utf8DecodeOne l = some (c, rest)) : rest.length < l.length := by
  cases l with
  | nil => simp [utf8DecodeOne] at h
  | cons b tail =>
    unfold utf8DecodeOne at h
    repeat' split at h
    all_goals simp_all
    all_goals omega

/-- `bytes.decode("utf-8")`: strict decoding of a whole byte list into code
points; `none` models `UnicodeDecodeError`. -/
def utf8Decode : List Nat → Option (List Nat)
  | [] => some []
  | b :: bs =>
    match h : utf8DecodeOne (b :: bs) with
    | none => none
    | some (c, rest) => (utf8Decode rest).map (c :: ·)
termination_by l => l.length
decreasing_by
  exact utf8DecodeOne_length h

theorem utf8EncodeChar_ne_nil (c : Nat) : utf8EncodeChar c ≠ [] := by
  unfold utf8EncodeChar
  split_ifs <;> simp

theorem utf8Decode_cons_eq (l : List Nat) (c : Nat) (rest : List Nat)
    (hne : l ≠ []) (h : utf8DecodeOne l = some (c, rest)) :
    utf8Decode l = (utf8Decode rest).map (c :: ·) := by
  cases l with
  | nil => simp at hne
  | cons b bs =>
    rw [utf8Decode]
    split
    · simp_all
    · simp_all

set_option maxRecDepth 8192 in
theorem utf8DecodeOne_encodeChar (c : Nat) (hv : validCodepoint c = true)
    (rest : List Nat) :
    utf8DecodeOne (utf8EncodeChar c ++ rest) = some (c, rest) := by
  simp only [validCodepoint, Bool.and_eq_true, decide_eq_true_eq, Bool.not_eq_true',
    Bool.and_eq_false_iff, decide_eq_false_iff_not, not_le, not_lt] at hv
  by_cases h1 : c < 0x80
  · rw [show utf8EncodeChar c = [c] by simp [utf8EncodeChar, h1], List.singleton_append]
    unfold utf8DecodeOne
    simp [h1]
  · by_cases h2 : c < 0x800
    · have e1 : utf8EncodeChar c = [0xC0 + c / 64, 0x80 + c % 64] := by
        simp [utf8EncodeChar, h1, h2]
      rw [e1]
      have hb1 : ¬ (0xC0 + c / 64 < 0x80) := by omega
      have hb2 : ¬ (0xC0 + c / 64 < 0xC2) := by omega
      have hb3 : 0xC0 + c / 64 < 0xE0 := by omega
      have hc : isCont (0x80 + c % 64) = true := by
        simp only [isCont, Bool.and_eq_true, decide_eq_true_eq]
        omega
      simp only [List.cons_append, utf8DecodeOne, hb1, hb2, hb3, hc,
        if_neg hb1, if_neg hb2, if_pos hb3, if_pos hc, ite_true, ite_false]
      have : (0xC0 + c / 64 - 0xC0) * 64 + (0x80 + c % 64 - 0x80) = c := by omega
      rw [this]
      simp
    · by_cases h3 : c < 0x10000
      · have e1 : utf8EncodeChar c = [0xE0 + c / 4096, 0x80 + c / 64 % 64, 0x80 + c % 64] := by
          simp [utf8EncodeChar, h1, h2, h3]
        rw [e1]
        have hb1 : ¬ (0xE0 + c / 4096 < 0x80) := by omega
        have hb2 : ¬ (0xE0 + c / 4096 < 0xC2) := by omega
        have hb3 : ¬ (0xE0 + c / 4096 < 0xE0) := by omega
        have hb4 : 0xE0 + c / 4096 < 0xF0 := by omega
        have hc1 : isCont (0x80 + c / 64 % 64) = true := by
          simp only [isCont, Bool.and_eq_true, decide_eq_true_eq]
          omega
        have hc2 : isCont (0x80 + c % 64) = true := by
          simp only [isCont, Bool.and_eq_true, decide_eq_true_eq]
          omega
        have hdec : (0xE0 + c / 4096 - 0xE0) * 4096 + (0x80 + c / 64 % 64 - 0x80) * 64
            + (0x80 + c % 64 - 0x80) = c := by omega
        simp only [List.cons_append, utf8DecodeOne, if_neg hb1, if_neg hb2, if_neg hb3,
          if_pos hb4, hc1, hc2, Bool.and_self, ite_true, hdec]
        have hguard : ¬ (c < 0x800 ∨ (0xD800 ≤ c ∧ c < 0xE000)) := by
          rcases hv with ⟨hlt, hsur⟩
          rcases hsur with h | h <;> omega
        simp [hguard, decide_eq_true_eq]
      · have e1 : utf8EncodeChar c =
            [0xF0 + c / 0x40000, 0x80 + c / 4096 % 64, 0x80 + c / 64 % 64, 0x80 + c % 64] := by
          simp [utf8EncodeChar, h1, h2, h3]
        rw [e1]
        have hcc : c < 0x110000 := hv.1
        have hb1 : ¬ (0xF0 + c / 0x40000 < 0x80) := by omega
        have hb2 : ¬ (0xF0 + c / 0x40000 < 0xC2) := by omega
        have hb3 : ¬ (0xF0 + c / 0x40000 < 0xE0) := by omega
        have hb4 : ¬ (0xF0 + c / 0x40000 < 0xF0) := by omega
        have hb5 : 0xF0 + c / 0x40000 < 0xF5 := by omega
        have hc1 : isCont (0x80 + c / 4096 % 64) = true := by
          simp only [isCont, Bool.and_eq_true, decide_eq_true_eq]
          omega
        have hc2 : isCont (0x80 + c / 64 % 64) = true := by
          simp only [isCont, Bool.and_eq_true, decide_eq_true_eq]
          omega
        have hc3 : isCont (0x80 + c % 64) = true := by
          simp only [isCont, Bool.and_eq_true, decide_eq_true_eq]
          omega
        have hdec : (0xF0 + c / 0x40000 - 0xF0) * 0x40000 + (0x80 + c / 4096 % 64 - 0x80) * 4096
            + (0x80 + c / 64 % 64 - 0x80) * 64 + (0x80 + c % 64 - 0x80) = c := by omega
        simp only [List.cons_append, utf8DecodeOne, if_neg hb1, if_neg hb2, if_neg hb3,
          if_neg hb4, if_pos hb5, hc1, hc2, hc3, Bool.and_self, ite_true, hdec]
        have hg1 : ¬ (c < 0x10000) := h3
        have hg2 : ¬ (0x110000 ≤ c) := by omega
        simp [hg1, hg2, decide_eq_true_eq]

theorem utf8Decode_utf8Encode (cps : List Nat)
    (hv : ∀ c ∈ cps, validCodepoint c = true) :
    utf8Decode (utf8Encode cps) = some cps := by
  induction cps with
  | nil => simp [utf8Encode, utf8Decode]
  | cons c cs ih =>
    have hc := hv c (by simp)
    have hcs : ∀ x ∈ cs, validCodepoint x = true := fun x hx => hv x (by simp [hx])
    have henc : utf8Encode (c :: cs) = utf8EncodeChar c ++ utf8Encode cs := by
      simp [utf8Encode]
    rw [henc,
      utf8Decode_cons_eq _ c (utf8Encode cs)
        (by simp [utf8EncodeChar_ne_nil c])
        (utf8DecodeOne_encodeChar c hc _),
      ih hcs]
    rfl

/-! ## Binary codec (`binary_encoder.py`)

`BinaryEncoder` stores an ordered dict `key -> (fmt, value)`; `to_bytes`
serializes it and fills the hash-to-name key map as a side effect.
`BinaryDecoder._parse` walks the buffer record by record.

A `struct` integer format is modelled as its byte size plus a signedness flag
(`"b"/"h"/"i"/"q"` signed, `"B"/"H"/"I"/"Q"` unsigned).  Floats are modelled
by their IEEE-754 wire bit pattern: `struct.pack(">f", x)` writes the 4-byte
pattern of `x` as a single-precision float and `struct.unpack` reads it back,
so a field added by `add_float` is carried here as the bit pattern the wire
holds — exact for every value once it is in its 4- or 8-byte representation.
Python's per-process string `hash` is a parameter `h : String -> Nat`; the
source masks it with `& 0xFFFFFFFF`, modelled as `% 2 ^ 32`. -/

/-- A `struct` integer format: byte size (1, 2, 4 or 8) and signedness. -/
structure IntFmt where
  size : Nat
  signed : Bool
deriving DecidableEq, Repr

/-- The `size_ranges` table of `BinaryEncoder._get_int_format`:
signed minimum and maximum per supported size. -/
def sizeRanges : Nat → Option (Int × Int)
  | 1 => some (-128, 127)
  | 2 => some (-32768, 32767)
  | 4 => some (-2147483648, 2147483647)
  | 8 => some (-9223372036854775808, 9223372036854775807)
  | _ => none

/-- `BinaryEncoder._get_int_format`: picks the signed format when the value
fits the size's signed range, otherwise the unsigned one; `none` models the
`ValueError` for an unsupported size. -/
def getIntFormat (size : Nat) (v : Int) : Option IntFmt :=
  match sizeRanges size with
  | none => none
  | some (minVal, maxVal) => some ⟨size, decide (minVal ≤ v ∧ v ≤ maxVal)⟩

/-- `BinaryEncoder._determine_int_size`. -/
def determineIntSize (v : Int) : Nat :=
  if -128 ≤ v ∧ v ≤ 255 then 1
  else if -32768 ≤ v ∧ v ≤ 32767 then 2
  else if -2147483648 ≤ v ∧ v ≤ 2147483647 then 4
  else 8

/-- `add_int` with `size=None`: the format chosen for an auto-sized integer. -/
def autoIntFmt (v : Int) : Option IntFmt :=
  getIntFormat (determineIntSize v) v

/-- The `integer_types` table of `_get_integer_type_info`: wire `type_id` per
format (`b`→1, `B`→11, `h`→2, `H`→12, `i`→3, `I`→13, `q`→4, `Q`→14). -/
def typeIdOf (f : IntFmt) : Nat :=
  match f.size, f.signed with
  | 1, true => 1
  | 1, false => 11
  | 2, true => 2
  | 2, false => 12
  | 4, true => 3
  | 4, false => 13
  | 8, true => 4
  | 8, false => 14
  | _, _ => 0

/-- `struct.pack` of an integer payload: signed formats write two's
complement, unsigned formats the plain value; `none` models the
`struct.error` raised when the value does not fit the format. -/
def packIntPayload (f : IntFmt) (v : Int) : Option (List Nat) :=
  if f.signed then
    if -(2 ^ (8 * f.size - 1)) ≤ v ∧ v < 2 ^ (8 * f.size - 1) then
      some (encSignedBE f.size v)
    else none
  else
    if 0 ≤ v ∧ v < 2 ^ (8 * f.size) then some (toBytesBE f.size v.toNat)
    else none

/-- A value as held in `BinaryEncoder._data` after an `add_*` call:
`add_int` stores its chosen format, `add_float` its precision flag (the value
here is the IEEE bit pattern, see module comment), `add_string` the UTF-8
encoded bytes. -/
inductive StoredVal
  | sInt (fmt : IntFmt) (v : Int)
  | sFloat (dbl : Bool) (bits : Nat)
  | sStr (bytes : List Nat)
deriving DecidableEq, Repr

/-- A value handed to the encoder: a Python int, a float (by its wire bit
pattern at the chosen precision), or a str (by its code points). -/
inductive PyVal
  | pyInt (v : Int)
  | pyFloat (dbl : Bool) (bits : Nat)
  | pyStr (cps : List Nat)
deriving DecidableEq, Repr

/-- The `add_int` (auto-sized) / `add_float` / `add_string` insertion of one
value; `none` models the exception paths (`add_string` length check, the
UTF-8 encode error on surrogates). -/
def addVal : PyVal → Option StoredVal
  | .pyInt v => (autoIntFmt v).map (fun f => .sInt f v)
  | .pyFloat dbl bits => some (.sFloat dbl bits)
  | .pyStr cps =>
    if cps.all validCodepoint then
      if (utf8Encode cps).length ≤ 255 then some (.sStr (utf8Encode cps))
      else none
    else none

/-- The values for which insertion and `to_bytes` both succeed: integers in
`[-2^63, 2^64)` (anything else overflows every `struct` format the auto-sizer
can pick), float bit patterns of the right width, and strings of valid code
points whose UTF-8 form fits the 1-byte length prefix. -/
def supportedVal : PyVal → Bool
  | .pyInt v => decide (-(2 ^ 63) ≤ v) && decide (v < 2 ^ 64)
  | .pyFloat dbl bits => decide (bits < 2 ^ (if dbl then 64 else 32))
  | .pyStr cps => cps.all validCodepoint && decide ((utf8Encode cps).length ≤ 255)

/-- `BinaryEncoder._encode_field`: one wire record
`key_hash(4) ++ type_id(1) ++ payload`; `none` models a `struct.error` /
`ValueError` raised while packing. -/
def encodeField (keyHash : Nat) : StoredVal → Option (List Nat)
  | .sStr bytes =>
    if bytes.length ≤ 255 then
      some (toBytesBE 4 keyHash ++ [0] ++ [bytes.length] ++ bytes)
    else none
  | .sInt f v =>
    match packIntPayload f v with
    | some payload => some (toBytesBE 4 keyHash ++ [typeIdOf f] ++ payload)
    | none => none
  | .sFloat dbl bits =>
    if bits < 2 ^ (8 * (if dbl then 8 else 4)) then
      some (toBytesBE 4 keyHash ++ [if dbl then 6 else 5]
        ++ toBytesBE (if dbl then 8 else 4) bits)
    else none

/-- `BinaryEncoder.to_bytes`: concatenation of the wire records in insertion
order, with each key hashed and masked to 32 bits. -/
def encodeFields (h : String → Nat) : List (String × StoredVal) → Option (List Nat)
  | [] => some []
  | (k, sv) :: rest => do
    let r ← encodeField (h k % 2 ^ 32) sv
    let rs ← encodeFields h rest
    pure (r ++ rs)

/-- Python-`dict` assignment on an association list: an existing key keeps its
position and gets the new value, a new key is appended. -/
def assocSet {α β : Type} [DecidableEq α] : List (α × β) → α → β → List (α × β)
  | [], k, v => [(k, v)]
  | (k', v') :: rest, k, v =>
    if k' = k then (k', v) :: rest else (k', v') :: assocSet rest k v

/-- Python-`dict` lookup on an association list. -/
def assocGet {α β : Type} [DecidableEq α] : List (α × β) → α → Option β
  | [], _ => none
  | (k', v') :: rest, k => if k' = k then some v' else assocGet rest k

/-- The `_key_map` built as a side effect of `to_bytes`:
`hash_of_key -> key`, in insertion order. -/
def keyMapOf (h : String → Nat) (fields : List (String × StoredVal)) :
    List (Nat × String) :=
  fields.foldl (fun m kv => assocSet m (h kv.1 % 2 ^ 32) kv.1) []

/-- One lowercase hex digit. -/
def hexDigit (n : Nat) : Char :=
  if n < 10 then Char.ofNat (48 + n) else Char.ofNat (87 + n)

/-- The synthetic field name used when the hash is missing from the key map:
`field_` followed by the hash as 8 lowercase hex digits. -/
def fallbackName (keyHash : Nat) : String :=
  "field_" ++ String.mk ((List.range 8).map (fun i => hexDigit (keyHash / 16 ^ (7 - i) % 16)))

/-- A value as held in `BinaryDecoder._data` (floats again by the bit pattern
read off the wire). -/
inductive DVal
  | dInt (v : Int)
  | dFloat (dbl : Bool) (bits : Nat)
  | dStr (cps : List Nat)
deriving DecidableEq, Repr

/-- Kind of a numeric wire type in `BinaryDecoder._decode_field`. -/
inductive NumKind
  | sint
  | uint
  | f32
  | f64
deriving DecidableEq, Repr

/-- The `type_formats` table of `BinaryDecoder._decode_field`:
kind and payload size per `type_id`. -/
def typeFormats : Nat → Option (NumKind × Nat)
  | 1 => some (.sint, 1)
  | 2 => some (.sint, 2)
  | 3 => some (.sint, 4)
  | 4 => some (.sint, 8)
  | 5 => some (.f32, 4)
  | 6 => some (.f64, 8)
  | 11 => some (.uint, 1)
  | 12 => some (.uint, 2)
  | 13 => some (.uint, 4)
  | 14 => some (.uint, 8)
  | _ => none

/-- `BinaryDecoder._decode_field`, taking the bytes after the 5-byte record
header (the source passes the full buffer plus an offset; here the suffix from
that offset).  `.ok none` is the `(None, 0)` truncated/unknown-type result,
`.error ()` the `UnicodeDecodeError` escaping from `.decode("utf-8")`. -/
def decodeField (data : List Nat) (dataType : Nat) :
    Except Unit (Option (DVal × Nat)) :=
  if dataType = 0 then
    if data.length < 1 then .ok none
    else
      let strLen := data.getD 0 0
      if (data.drop 1).length < strLen then .ok none
      else
        match utf8Decode ((data.drop 1).take strLen) with
        | some cps => .ok (some (.dStr cps, 1 + strLen))
        | none => .error ()
  else
    match typeFormats dataType with
    | some (kind, size) =>
      if data.length < size then .ok none
      else
        match kind with
        | .sint => .ok (some (.dInt (decSignedBE size (data.take size)), size))
        | .uint => .ok (some (.dInt (fromBytesBE (data.take size) : Int), size))
        | .f32 => .ok (some (.dFloat false (fromBytesBE (data.take size)), size))
        | .f64 => .ok (some (.dFloat true (fromBytesBE (data.take size)), size))
    | none => .ok none

/-- `BinaryDecoder._parse`, walking the buffer (the source keeps an absolute
offset into a fixed buffer; here the not-yet-consumed suffix).  `acc` is the
`_data` dict being filled; `.error ()` is the `UnicodeDecodeError` the
constructor lets escape. -/
def parseFrom (keyMap : List (Nat × String)) (data : List Nat)
    (acc : List (String × DVal)) : Except Unit (List (String × DVal)) :=
  if data.length < 5 then .ok acc
  else
    let keyHash := fromBytesBE (data.take 4)
    let dataType := data.getD 4 0
    let rest := data.drop 5
    let keyName := (assocGet keyMap keyHash).getD (fallbackName keyHash)
    match decodeField rest dataType with
    | .error () => .error ()
    | .ok none => .ok acc
    | .ok (some (v, consumed)) =>
      parseFrom keyMap (rest.drop consumed) (assocSet acc keyName v)
termination_by data.length
decreasing_by
  simp_all
  omega

/-- The decoded form a round trip is expected to produce for each inserted
value. -/
def expectedDVal : PyVal → DVal
  | .pyInt v => .dInt v
  | .pyFloat dbl bits => .dFloat dbl bits
  | .pyStr cps => .dStr cps

/-! ## Integer auto-sizing (spec formulation and equivalence) -/

/-- The spec's size rule, written with its own words (powers of two): size 1
if `-128 ≤ v ≤ 255`, else 2 if `-32768 ≤ v ≤ 32767`, else 4 if
`-2^31 ≤ v ≤ 2^31 - 1`, else 8. -/
def specAutoSize (v : Int) : Nat :=
  if -128 ≤ v ∧ v ≤ 255 then 1
  else if -32768 ≤ v ∧ v ≤ 32767 then 2
  else if -(2 ^ 31) ≤ v ∧ v ≤ 2 ^ 31 - 1 then 4
  else 8

/-- The spec's signedness rule: the signed variant is used exactly when `v`
fits the chosen size's signed range. -/
def specSignedFits (size : Nat) (v : Int) : Bool :=
  decide (-(2 ^ (8 * size - 1)) ≤ v ∧ v ≤ 2 ^ (8 * size - 1) - 1)

theorem autoIntFmt_eq (v : Int) :
    autoIntFmt v = some ⟨specAutoSize v, specSignedFits (specAutoSize v) v⟩ := by
  unfold autoIntFmt determineIntSize specAutoSize specSignedFits
  split_ifs <;>
    simp only [getIntFormat, sizeRanges, Option.some.injEq, IntFmt.mk.injEq,
      decide_eq_decide] <;>
    norm_num at * <;>
    omega

theorem encSignedBE_length (n : Nat) (v : Int) : (encSignedBE n v).length = n := by
  simp [encSignedBE, toBytesBE_length]


/-- The wire behaviour an auto-sized `add_int` field must exhibit for a
round trip: the chosen format packs without error into `size` bytes and the
decoder's matching numeric branch recovers the original value. -/
def IntRoundtrip (v : Int) : Prop :=
  ∃ f payload,
    autoIntFmt v = some f ∧
    packIntPayload f v = some payload ∧
    payload.length = f.size ∧
    typeFormats (typeIdOf f) = some (if f.signed then NumKind.sint else NumKind.uint, f.size) ∧
    (if f.signed then decSignedBE f.size payload else (fromBytesBE payload : Int)) = v

theorem int_rt_signed (v : Int) (size : Nat) (hpos : 0 < size)
    (hsize : specAutoSize v = size)
    (hlo : -(2 ^ (8 * size - 1)) ≤ v) (hhi : v < 2 ^ (8 * size - 1))
    (htf : typeFormats (typeIdOf ⟨size, true⟩) = some (NumKind.sint, size)) :
    IntRoundtrip v := by
  have hsgn : specSignedFits size v = true := by
    unfold specSignedFits
    rw [decide_eq_true_eq]
    exact ⟨hlo, by omega⟩
  have hfmt := autoIntFmt_eq v
  rw [hsize, hsgn] at hfmt
  refine ⟨⟨size, true⟩, encSignedBE size v, hfmt, ?_, encSignedBE_length size v, ?_, ?_⟩
  · simp only [packIntPayload, if_true]
    rw [if_pos ⟨hlo, hhi⟩]
  · simpa using htf
  · simpa using decSignedBE_encSignedBE size v hpos hlo hhi

theorem int_rt_unsigned (v : Int) (size : Nat)
    (hsize : specAutoSize v = size)
    (hsgn : specSignedFits size v = false)
    (hlo : 0 ≤ v) (hhi : v < 2 ^ (8 * size))
    (htf : typeFormats (typeIdOf ⟨size, false⟩) = some (NumKind.uint, size)) :
    IntRoundtrip v := by
  have hfmt := autoIntFmt_eq v
  rw [hsize, hsgn] at hfmt
  refine ⟨⟨size, false⟩, toBytesBE size v.toNat, hfmt, ?_, by simp [toBytesBE_length], ?_, ?_⟩
  · simp only [packIntPayload, Bool.false_eq_true, if_false]
    rw [if_pos ⟨hlo, hhi⟩]
  · simpa using htf
  · simpa using fromBytesBE_toBytesBE_int size v hlo hhi

/-- Every integer `struct.pack` can represent at all round-trips through the
auto-sizing encoder and the decoder. -/
theorem int_field_roundtrip (v : Int) (h1 : -(2 ^ 63) ≤ v) (h2 : v < 2 ^ 64) :
    IntRoundtrip v := by
  by_cases c1s : -128 ≤ v ∧ v ≤ 127
  · refine int_rt_signed v 1 (by norm_num) ?_ (by norm_num; omega) (by norm_num; omega) rfl
    unfold specAutoSize
    rw [if_pos (by omega)]
  · by_cases c1u : 128 ≤ v ∧ v ≤ 255
    · refine int_rt_unsigned v 1 ?_ ?_ (by omega) (by norm_num; omega) rfl
      · unfold specAutoSize
        rw [if_pos (by omega)]
      · unfold specSignedFits
        rw [decide_eq_false_iff_not]
        norm_num
        omega
    · by_cases c2 : -32768 ≤ v ∧ v ≤ 32767
      · refine int_rt_signed v 2 (by norm_num) ?_ (by norm_num; omega) (by norm_num; omega) rfl
        unfold specAutoSize
        rw [if_neg (by omega), if_pos (by omega)]
      · by_cases c4 : -(2 ^ 31) ≤ v ∧ v ≤ 2 ^ 31 - 1
        · refine int_rt_signed v 4 (by norm_num) ?_ (by norm_num; omega) (by norm_num; omega) rfl
          unfold specAutoSize
          rw [if_neg (by omega), if_neg (by omega), if_pos c4]
        · by_cases c8s : v < 2 ^ 63
          · refine int_rt_signed v 8 (by norm_num) ?_ (by norm_num; omega) (by norm_num; omega) rfl
            unfold specAutoSize
            rw [if_neg (by omega), if_neg (by omega), if_neg c4]
          · refine int_rt_unsigned v 8 ?_ ?_ (by norm_num; omega) (by norm_num; omega) rfl
            · unfold specAutoSize
              rw [if_neg (by omega), if_neg (by omega), if_neg c4]
            · unfold specSignedFits
              rw [decide_eq_false_iff_not]
              norm_num
              omega


/-! ## Record-level round trip -/

theorem exists_len4 (l : List Nat) (h : l.length = 4) :
    ∃ a b c d, l = [a, b, c, d] := by
  rcases l with _ | ⟨a, _ | ⟨b, _ | ⟨c, _ | ⟨d, _ | ⟨e, t⟩⟩⟩⟩⟩
  any_goals simp at h
  exact ⟨a, b, c, d, rfl⟩

/-- The stored form of a successfully inserted value. -/
def theStored (v : PyVal) : StoredVal :=
  (addVal v).getD (.sFloat false 0)

theorem addVal_supported (v : PyVal) (hs : supportedVal v = true) :
    addVal v = some (theStored v) := by
  cases v with
  | pyInt v =>
    simp [addVal, theStored, autoIntFmt_eq]
  | pyFloat dbl bits => rfl
  | pyStr cps =>
    simp only [supportedVal, Bool.and_eq_true, decide_eq_true_eq] at hs
    simp [addVal, theStored, hs.1, hs.2]

/-- One supported field encodes into a well-formed wire record that the
decoder's field reader consumes exactly and maps back to the inserted
value. -/
theorem field_enc_dec (v : PyVal) (hs : supportedVal v = true) (kh : Nat) :
    ∃ tid payload,
      encodeField kh (theStored v) = some (toBytesBE 4 kh ++ tid :: payload) ∧
      ∀ rest, decodeField (payload ++ rest) tid
        = .ok (some (expectedDVal v, payload.length)) := by
  cases v with
  | pyInt v =>
    simp only [supportedVal, Bool.and_eq_true, decide_eq_true_eq] at hs
    obtain ⟨f, payload, hfmt, hpack, hlen, htf, hdec⟩ :=
      int_field_roundtrip v hs.1 hs.2
    obtain ⟨size, sgn⟩ := f
    have hstored : theStored (.pyInt v) = .sInt ⟨size, sgn⟩ v := by
      simp [theStored, addVal, hfmt]
    refine ⟨typeIdOf ⟨size, sgn⟩, payload, ?_, ?_⟩
    · rw [hstored]
      simp [encodeField, hpack]
    · intro rest
      have htid0 : typeIdOf ⟨size, sgn⟩ ≠ 0 := by
        intro hz
        rw [hz] at htf
        simp [typeFormats] at htf
      simp only at hlen
      have hnl : ¬((payload ++ rest).length < size) := by
        rw [List.length_append, hlen]
        omega
      cases sgn
      · simp only [Bool.false_eq_true, if_false] at htf hdec
        rw [decodeField, if_neg htid0, htf]
        simp only [hnl, if_false, List.take_left' hlen, hdec, hlen, expectedDVal]
      · simp only [if_true] at htf hdec
        rw [decodeField, if_neg htid0, htf]
        simp only [hnl, if_false, List.take_left' hlen, hdec, hlen, expectedDVal]
  | pyFloat dbl bits =>
    simp only [supportedVal, decide_eq_true_eq] at hs
    cases dbl
    · have hbits : bits < 2 ^ (8 * 4) := by simpa using hs
      have hbitsL : bits < 4294967296 := by norm_num at hbits; exact hbits
      refine ⟨5, toBytesBE 4 bits, ?_, ?_⟩
      · simp [theStored, addVal, encodeField, hbitsL]
      · intro rest
        have hlen : (toBytesBE 4 bits).length = 4 := toBytesBE_length 4 bits
        have hfb : fromBytesBE (toBytesBE 4 bits) = bits := by
          refine fromBytesBE_toBytesBE _ _ ?_
          rw [pow256_eq]
          exact hbits
        have hnl : ¬((toBytesBE 4 bits ++ rest).length < 4) := by
          rw [List.length_append, hlen]
          omega
        rw [decodeField, if_neg (by norm_num),
          show typeFormats 5 = some (.f32, 4) from rfl]
        simp only [hnl, if_false, List.take_left' hlen, hfb, hlen, expectedDVal]
    · have hbits : bits < 2 ^ (8 * 8) := by simpa using hs
      have hbitsL : bits < 18446744073709551616 := by norm_num at hbits; exact hbits
      refine ⟨6, toBytesBE 8 bits, ?_, ?_⟩
      · simp [theStored, addVal, encodeField, hbitsL]
      · intro rest
        have hlen : (toBytesBE 8 bits).length = 8 := toBytesBE_length 8 bits
        have hfb : fromBytesBE (toBytesBE 8 bits) = bits := by
          refine fromBytesBE_toBytesBE _ _ ?_
          rw [pow256_eq]
          exact hbits
        have hnl : ¬((toBytesBE 8 bits ++ rest).length < 8) := by
          rw [List.length_append, hlen]
          omega
        rw [decodeField, if_neg (by norm_num),
          show typeFormats 6 = some (.f64, 8) from rfl]
        simp only [hnl, if_false, List.take_left' hlen, hfb, hlen, expectedDVal]
  | pyStr cps =>
    simp only [supportedVal, Bool.and_eq_true, decide_eq_true_eq] at hs
    have hvalid : ∀ c ∈ cps, validCodepoint c = true := by
      simpa [List.all_eq_true] using hs.1
    refine ⟨0, (utf8Encode cps).length :: utf8Encode cps, ?_, ?_⟩
    · simp [theStored, addVal, hs.1, hs.2, encodeField]
    · intro rest
      rw [decodeField, if_pos rfl]
      rw [if_neg (by simp)]
      simp only [List.cons_append, List.getD_cons_zero, List.drop_one, List.tail_cons]
      rw [if_neg (by simp)]
      rw [List.take_left' rfl]
      rw [utf8Decode_utf8Encode cps hvalid]
      simp only [expectedDVal, List.length_cons, Except.ok.injEq, Option.some.injEq,
        Prod.mk.injEq, DVal.dStr.injEq, true_and]
      omega

/-- Consuming one well-formed record advances `_parse` by exactly that
record and stores its decoded value under the key-map name. -/
theorem parseFrom_record (km : List (Nat × String)) (kh : Nat) (hkh : kh < 2 ^ 32)
    (name : String) (hname : assocGet km kh = some name)
    (tid : Nat) (payload restData : List Nat) (dval : DVal)
    (hdec : decodeField (payload ++ restData) tid = .ok (some (dval, payload.length)))
    (acc : List (String × DVal)) :
    parseFrom km (toBytesBE 4 kh ++ tid :: (payload ++ restData)) acc
      = parseFrom km restData (assocSet acc name dval) := by
  obtain ⟨a, b, c, d, hA⟩ := exists_len4 (toBytesBE 4 kh) (toBytesBE_length 4 kh)
  have hfb : fromBytesBE [a, b, c, d] = kh := by
    rw [← hA]
    refine fromBytesBE_toBytesBE 4 kh ?_
    rw [pow256_eq]
    norm_num
    exact hkh
  rw [hA]
  rw [parseFrom]
  simp only [List.cons_append, List.nil_append, List.length_cons, List.take_cons,
    List.take_zero, List.drop_succ_cons, List.drop_zero, List.getD_cons_succ,
    List.getD_cons_zero]
  rw [if_neg (by simp)]
  simp only [List.take, hfb, hname, Option.getD_some, hdec]
  rw [List.drop_left' rfl]

theorem assocSet_append {α β : Type} [DecidableEq α] (l : List (α × β)) (k : α) (v : β)
    (h : ∀ e ∈ l, e.1 ≠ k) : assocSet l k v = l ++ [(k, v)] := by
  induction l with
  | nil => rfl
  | cons e rest ih =>
    have he : e.1 ≠ k := h e (by simp)
    rw [show (e :: rest : List (α × β)) = (e.1, e.2) :: rest from rfl]
    rw [assocSet, if_neg he, ih (fun x hx => h x (by simp [hx]))]
    rfl

theorem assocGet_mem_nodup {α β : Type} [DecidableEq α] (l : List (α × β))
    (hnd : (l.map Prod.fst).Nodup) (k : α) (v : β) (hm : (k, v) ∈ l) :
    assocGet l k = some v := by
  induction l with
  | nil => simp at hm
  | cons e rest ih =>
    rw [show (e :: rest : List (α × β)) = (e.1, e.2) :: rest from rfl, assocGet]
    rcases List.mem_cons.mp hm with heq | hmem
    · rw [if_pos (by rw [← heq])]
      rw [← heq]
    · have hk : e.1 ≠ k := by
        intro hcontra
        have : k ∈ rest.map Prod.fst := by
          exact List.mem_map.mpr ⟨(k, v), hmem, rfl⟩
        rw [List.map_cons] at hnd
        rw [hcontra] at hnd
        exact (List.nodup_cons.mp hnd).1 this
      rw [if_neg hk]
      have hnd2 : (rest.map Prod.fst).Nodup := by
        rw [List.map_cons, List.nodup_cons] at hnd
        exact hnd.2
      exact ih hnd2 hmem

theorem keyMapOf_foldl (h : String → Nat) (stored : List (String × StoredVal)) :
    ∀ (init : List (Nat × String)),
    (∀ e ∈ init, ∀ kv ∈ stored, e.1 ≠ h kv.1 % 2 ^ 32) →
    (stored.map (fun kv => h kv.1 % 2 ^ 32)).Nodup →
    stored.foldl (fun m kv => assocSet m (h kv.1 % 2 ^ 32) kv.1) init
      = init ++ stored.map (fun kv => (h kv.1 % 2 ^ 32, kv.1)) := by
  induction stored with
  | nil => intro init _ _; simp
  | cons kv rest ih =>
    intro init hdisj hnd
    rw [List.foldl_cons]
    rw [assocSet_append init _ _ (fun e he => hdisj e he kv (by simp))]
    rw [List.map_cons, List.nodup_cons] at hnd
    rw [ih (init ++ [(h kv.1 % 2 ^ 32, kv.1)]) ?_ hnd.2]
    · simp
    · intro e he kv2 hkv2
      rcases List.mem_append.mp he with h1 | h2
      · exact hdisj e h1 kv2 (by simp [hkv2])
      · simp only [List.mem_singleton] at h2
        subst h2
        intro hcontra
        have hc2 : h kv.1 % 2 ^ 32 = h kv2.1 % 2 ^ 32 := hcontra
        exact hnd.1 (by rw [hc2]; exact List.mem_map.mpr ⟨kv2, hkv2, rfl⟩)

theorem keyMapOf_eq (h : String → Nat) (stored : List (String × StoredVal))
    (hnd : (stored.map (fun kv => h kv.1 % 2 ^ 32)).Nodup) :
    keyMapOf h stored = stored.map (fun kv => (h kv.1 % 2 ^ 32, kv.1)) := by
  rw [keyMapOf, keyMapOf_foldl h stored [] (by simp) hnd]
  simp

theorem mapM_addVal (fields : List (String × PyVal))
    (hsupp : ∀ kv ∈ fields, supportedVal kv.2 = true) :
    fields.mapM (fun kv => (addVal kv.2).map (fun sv => (kv.1, sv)))
      = some (fields.map (fun kv => (kv.1, theStored kv.2))) := by
  induction fields with
  | nil => rfl
  | cons kv rest ih =>
    rw [List.mapM_cons]
    rw [addVal_supported kv.2 (hsupp kv (by simp))]
    rw [ih (fun x hx => hsupp x (by simp [hx]))]
    rfl

/-- The generalized round-trip induction: parsing the concatenated records of
the remaining fields extends the already-decoded dict by exactly those
fields. -/
theorem parse_encode_aux (h : String → Nat) (km : List (Nat × String)) :
    ∀ (fields : List (String × PyVal)) (acc : List (String × DVal)),
    (∀ kv ∈ fields, supportedVal kv.2 = true) →
    (∀ kv ∈ fields, assocGet km (h kv.1 % 2 ^ 32) = some kv.1) →
    (∀ kv ∈ fields, ∀ e ∈ acc, e.1 ≠ kv.1) →
    (fields.map Prod.fst).Nodup →
    ∃ bytes,
      encodeFields h (fields.map (fun kv => (kv.1, theStored kv.2))) = some bytes ∧
      parseFrom km bytes acc
        = .ok (acc ++ fields.map (fun kv => (kv.1, expectedDVal kv.2))) := by
  intro fields
  induction fields with
  | nil =>
    intro acc _ _ _ _
    refine ⟨[], rfl, ?_⟩
    rw [parseFrom]
    simp
  | cons kv rest ih =>
    intro acc hsupp hkm hacc hnd
    obtain ⟨tid, payload, henc, hdecf⟩ :=
      field_enc_dec kv.2 (hsupp kv (by simp)) (h kv.1 % 2 ^ 32)
    have hndrest : (rest.map Prod.fst).Nodup := by
      rw [List.map_cons, List.nodup_cons] at hnd
      exact hnd.2
    have hknotin : kv.1 ∉ rest.map Prod.fst := by
      rw [List.map_cons, List.nodup_cons] at hnd
      exact hnd.1
    have haccN : ∀ x ∈ rest, ∀ e ∈ assocSet acc kv.1 (expectedDVal kv.2), e.1 ≠ x.1 := by
      intro x hx e he
      rcases List.mem_append.mp (by
          rw [assocSet_append acc kv.1 (expectedDVal kv.2) (hacc kv (by simp))] at he
          exact he) with h1 | h2
      · exact hacc x (by simp [hx]) e h1
      · simp only [List.mem_singleton] at h2
        subst h2
        intro hcontra
        have hc2 : kv.1 = x.1 := hcontra
        exact hknotin (by rw [hc2]; exact List.mem_map.mpr ⟨x, hx, rfl⟩)
    obtain ⟨bytesR, hencR, hparseR⟩ :=
      ih (assocSet acc kv.1 (expectedDVal kv.2))
        (fun x hx => hsupp x (by simp [hx]))
        (fun x hx => hkm x (by simp [hx]))
        haccN hndrest
    refine ⟨(toBytesBE 4 (h kv.1 % 2 ^ 32) ++ tid :: payload) ++ bytesR, ?_, ?_⟩
    · rw [List.map_cons]
      rw [show encodeFields h ((kv.1, theStored kv.2)
            :: rest.map (fun kv => (kv.1, theStored kv.2)))
          = do
            let r ← encodeField (h kv.1 % 2 ^ 32) (theStored kv.2)
            let rs ← encodeFields h (rest.map (fun kv => (kv.1, theStored kv.2)))
            pure (r ++ rs) from rfl]
      rw [henc, hencR]
      rfl
    · have hshape : (toBytesBE 4 (h kv.1 % 2 ^ 32) ++ tid :: payload) ++ bytesR
          = toBytesBE 4 (h kv.1 % 2 ^ 32) ++ tid :: (payload ++ bytesR) := by
        simp
      rw [hshape]
      rw [parseFrom_record km (h kv.1 % 2 ^ 32)
        (Nat.mod_lt _ (by norm_num)) kv.1 (hkm kv (by simp)) tid payload bytesR
        (expectedDVal kv.2) (hdecf bytesR) acc]
      rw [hparseR]
      rw [assocSet_append acc kv.1 (expectedDVal kv.2) (hacc kv (by simp))]
      simp

/-- C1: Round-trip of the binary codec.  For every list of named supported
values (distinct names, and a string-hash that does not collide on those
names), inserting them, serializing with `to_bytes`, and decoding the result
with the key map built by the encoder recovers exactly the inserted fields,
name-for-name and value-for-value: integers per the auto-sizing/signedness
rule, floats per their wire representation at the chosen precision. -/
theorem binary_codec_roundtrip (h : String → Nat) (fields : List (String × PyVal))
    (hnd : (fields.map Prod.fst).Nodup)
    (hinj : ∀ k1 ∈ fields.map Prod.fst, ∀ k2 ∈ fields.map Prod.fst,
      h k1 % 2 ^ 32 = h k2 % 2 ^ 32 → k1 = k2)
    (hsupp : ∀ kv ∈ fields, supportedVal kv.2 = true) :
    ∃ stored bytes,
      fields.mapM (fun kv => (addVal kv.2).map (fun sv => (kv.1, sv))) = some stored ∧
      encodeFields h stored = some bytes ∧
      parseFrom (keyMapOf h stored) bytes []
        = .ok (fields.map (fun kv => (kv.1, expectedDVal kv.2))) := by
  have hmapm := mapM_addVal fields hsupp
  have hhash1 : (fields.map (fun kv => (kv.1, theStored kv.2))).map
      (fun kv => h kv.1 % 2 ^ 32) = (fields.map Prod.fst).map (fun k => h k % 2 ^ 32) := by
    simp [List.map_map, Function.comp]
  have hhashnd : ((fields.map (fun kv => (kv.1, theStored kv.2))).map
      (fun kv => h kv.1 % 2 ^ 32)).Nodup := by
    rw [hhash1]
    exact List.Nodup.map_on hinj hnd
  have hkmeq : keyMapOf h (fields.map (fun kv => (kv.1, theStored kv.2)))
      = (fields.map (fun kv => (kv.1, theStored kv.2))).map
        (fun kv => (h kv.1 % 2 ^ 32, kv.1)) := keyMapOf_eq h _ hhashnd
  have hkmfst : ((fields.map (fun kv => (kv.1, theStored kv.2))).map
      (fun kv => (h kv.1 % 2 ^ 32, kv.1))).map Prod.fst
      = (fields.map (fun kv => (kv.1, theStored kv.2))).map
        (fun kv => h kv.1 % 2 ^ 32) := by
    simp [List.map_map, Function.comp]
  have hkmcond : ∀ kv ∈ fields,
      assocGet (keyMapOf h (fields.map (fun kv => (kv.1, theStored kv.2))))
        (h kv.1 % 2 ^ 32) = some kv.1 := by
    intro kv hkv
    rw [hkmeq]
    refine assocGet_mem_nodup _ ?_ _ _ ?_
    · rw [hkmfst]
      exact hhashnd
    · exact List.mem_map.mpr ⟨(kv.1, theStored kv.2),
        List.mem_map.mpr ⟨kv, hkv, rfl⟩, rfl⟩
  obtain ⟨bytes, henc, hparse⟩ :=
    parse_encode_aux h (keyMapOf h (fields.map (fun kv => (kv.1, theStored kv.2))))
      fields [] hsupp hkmcond (by simp) hnd
  refine ⟨fields.map (fun kv => (kv.1, theStored kv.2)), bytes, hmapm, henc, ?_⟩
  simpa using hparse

/-- Concrete instance of C1: two fields, an auto-sized int and a string,
hashed by string length. -/
theorem binary_codec_roundtrip_witness :
    ∃ stored bytes,
      ([("a", PyVal.pyInt 200), ("bb", PyVal.pyStr [104, 105])].mapM
          (fun kv => (addVal kv.2).map (fun sv => (kv.1, sv))) = some stored) ∧
      encodeFields String.length stored = some bytes ∧
      parseFrom (keyMapOf String.length stored) bytes []
        = .ok ([("a", PyVal.pyInt 200), ("bb", PyVal.pyStr [104, 105])].map
            (fun kv => (kv.1, expectedDVal kv.2))) :=
  binary_codec_roundtrip String.length
    [("a", PyVal.pyInt 200), ("bb", PyVal.pyStr [104, 105])]
    (by decide) (by decide) (by decide)

/-- The `type_id` an auto-sized `add_int` ends up writing on the wire. -/
def autoTypeId (v : Int) : Option Nat :=
  (autoIntFmt v).map typeIdOf

/-- The byte size an auto-sized `add_int` ends up using. -/
def autoSizeOf (v : Int) : Option Nat :=
  (autoIntFmt v).map IntFmt.size

/-- C3 (counterexample): the spec examples for 40000 and 3000000000 are wrong
on the code: the 2-byte range test `-32768 <= v <= 32767` fails for 40000, so
it is not encoded as 2-byte unsigned (type_id 12), and the 4-byte range test
fails for 3000000000, so it is not encoded as 4-byte unsigned (type_id 13). -/
theorem auto_int_sizing_examples_counterexample :
    autoTypeId 40000 ≠ some 12 ∧ autoTypeId 3000000000 ≠ some 13 := by
  decide

/-- C3 (amended): `add_int` without an explicit size encodes 200 as 1-byte
unsigned (type_id 11), -5 as 1-byte signed (type_id 1), 40000 as 4-byte
signed (type_id 3), 3000000000 as 8-byte signed (type_id 4), and
-3000000000 as 8-byte signed (type_id 4). -/
theorem auto_int_sizing_examples :
    autoTypeId 200 = some 11 ∧ autoSizeOf 200 = some 1
    ∧ autoTypeId (-5) = some 1 ∧ autoSizeOf (-5) = some 1
    ∧ autoTypeId 40000 = some 3 ∧ autoSizeOf 40000 = some 4
    ∧ autoTypeId 3000000000 = some 4 ∧ autoSizeOf 3000000000 = some 8
    ∧ autoTypeId (-3000000000) = some 4 ∧ autoSizeOf (-3000000000) = some 8 := by
  decide

/-- C4: for every integer inserted via `add_int` without an explicit size,
the encoder picks size 1 if `-128 <= v <= 255`, else size 2 if
`-32768 <= v <= 32767`, else size 4 if `-2^31 <= v <= 2^31 - 1`, else size 8;
and within the chosen size the signed wire variant is used exactly when `v`
fits that size signed range. -/
theorem add_int_auto_size_signedness (v : Int) :
    autoIntFmt v = some ⟨specAutoSize v, specSignedFits (specAutoSize v) v⟩ :=
  autoIntFmt_eq v

/-- C10: `BinaryDecoder` construction is not total.  A buffer holding one
complete, length-consistent string record (type 0, length 1) whose payload
byte `0xFF` is not valid UTF-8 makes `_parse` raise `UnicodeDecodeError`
(modelled as `.error ()`), while a buffer ending in a truncated record keeps
every preceding complete field and stops silently, and an unknown type tag
also stops silently. -/
theorem decoder_unicode_error_totality :
    parseFrom [] [0, 0, 0, 1, 0, 1, 255] [] = .error ()
    ∧ parseFrom [] [0, 0, 0, 2, 11, 200, 0, 0, 0, 3] []
        = .ok [(fallbackName 2, DVal.dInt 200)]
    ∧ parseFrom [] [0, 0, 0, 1, 99, 7] [] = .ok [] := by
  have hu : utf8Decode [255] = none := by
    rw [utf8Decode]
    split
    · rfl
    · rename_i c rest heq
      simp [utf8DecodeOne] at heq
  refine ⟨?_, ?_, ?_⟩
  · rw [parseFrom]
    norm_num
    rw [show decodeField [1, 255] 0 = Except.error () by
      rw [decodeField]
      norm_num
      rw [hu]]
  · rw [parseFrom]
    norm_num
    rw [show decodeField [200, 0, 0, 0, 3] 11 = Except.ok (some (DVal.dInt 200, 1)) by
      rw [decodeField]
      norm_num [typeFormats, fromBytesBE]]
    rw [show fromBytesBE [0, 0, 0, 2] = 2 by norm_num [fromBytesBE]]
    norm_num [assocGet, assocSet]
    rw [parseFrom]
    norm_num
  · rw [parseFrom]
    norm_num
    rw [show decodeField [7] 99 = Except.ok none by
      rw [decodeField]
      norm_num [typeFormats]]

/-! ## Packet framer (`packet_manager.py`)

A packet is a byte list: 6-byte header (`identifier:1, sequence:2, total:2,
rssi:1`, big-endian) followed by the payload slice.  `payloadSize` is the
`max_packet_size - 6` the manager derives from the radio. -/

/-- Python slice `packet[a:b]`. -/
def listSlice (l : List Nat) (a b : Nat) : List Nat := (l.drop a).take (b - a)

/-- `PacketManager._get_header`: identifier, sequence number, total packets,
and the RSSI (returned negated, the header carries its magnitude). -/
def getHeader (packet : List Nat) : Nat × Nat × Nat × Int :=
  (fromBytesBE (listSlice packet 0 1),
   fromBytesBE (listSlice packet 1 3),
   fromBytesBE (listSlice packet 3 5),
   -(fromBytesBE (listSlice packet 5 6) : Int))

/-- The identifier field of a packet header. -/
def packetIdent (p : List Nat) : Nat := (getHeader p).1

/-- The sequence field of a packet header. -/
def packetSeq (p : List Nat) : Nat := (getHeader p).2.1

/-- The total field of a packet header. -/
def packetTotal (p : List Nat) : Nat := (getHeader p).2.2.1

/-- `PacketManager._get_payload`: everything after the 6-byte header. -/
def getPayload (p : List Nat) : List Nat := p.drop 6

/-- `math.ceil(a / b)` on the integer inputs used here (exact: the float
division in the source is exact for every length and payload size for which
the packet headers below can be built at all). -/
def ceilDiv (a b : Nat) : Nat := (a + b - 1) / b

/-- `PacketManager._pack_data`: one packet per `payloadSize` slice of the
input, in ascending sequence order, all with the same identifier and total
count. -/
def packData (packetIdentifier rssi payloadSize : Nat) (data : List Nat) :
    List (List Nat) :=
  (List.range (ceilDiv data.length payloadSize)).map
    (fun sequenceNumber =>
      toBytesBE 1 packetIdentifier ++ toBytesBE 2 sequenceNumber
        ++ toBytesBE 2 (ceilDiv data.length payloadSize)
        ++ toBytesBE 1 rssi
        ++ (data.drop (sequenceNumber * payloadSize)).take payloadSize)

/-- Stable insertion of `x` into a sorted list: placed before the first
strictly greater key, matching the stability of Python `sorted`. -/
def sortInsert {α : Type} (key : α → Nat) (x : α) : List α → List α
  | [] => [x]
  | a :: l => if key x ≤ key a then x :: a :: l else a :: sortInsert key x l

/-- Stable sort by key (Python `sorted(packets, key=...)`). -/
def sortByKey {α : Type} (key : α → Nat) : List α → List α
  | [] => []
  | a :: l => sortInsert key a (sortByKey key l)

/-- `PacketManager._unpack_data`: sort by the sequence bytes `p[1:3]` and
concatenate the payloads. -/
def unpackData (packets : List (List Nat)) : List Nat :=
  ((sortByKey (fun p => fromBytesBE (listSlice p 1 3)) packets).map getPayload).flatten

theorem sortByKey_of_sorted {α : Type} (key : α → Nat) (l : List α)
    (h : l.Pairwise (fun a b => key a ≤ key b)) : sortByKey key l = l := by
  induction l with
  | nil => rfl
  | cons a l ih =>
    rw [List.pairwise_cons] at h
    rw [sortByKey, ih h.2]
    cases l with
    | nil => rfl
    | cons b t =>
      rw [sortInsert, if_pos (h.1 b (by simp))]

theorem packet_explicit (ident seq tot rssi : Nat) (chunk : List Nat)
    (h1 : ident < 256) (h2 : seq < 65536) (h3 : tot < 65536) (h4 : rssi < 256) :
    toBytesBE 1 ident ++ toBytesBE 2 seq ++ toBytesBE 2 tot ++ toBytesBE 1 rssi ++ chunk
      = ident :: seq / 256 :: seq % 256 :: tot / 256 :: tot % 256 :: rssi :: chunk := by
  rw [toBytesBE_one ident h1, toBytesBE_two seq h2, toBytesBE_two tot h3,
    toBytesBE_one rssi h4]
  rfl

theorem packetIdent_explicit (ident a b c d r : Nat) (chunk : List Nat) :
    packetIdent (ident :: a :: b :: c :: d :: r :: chunk) = ident := by
  simp [packetIdent, getHeader, listSlice, fromBytesBE]

theorem packetSeq_explicit (ident a b c d r : Nat) (chunk : List Nat) :
    packetSeq (ident :: a :: b :: c :: d :: r :: chunk) = a * 256 + b := by
  simp [packetSeq, getHeader, listSlice, fromBytesBE]

theorem packetTotal_explicit (ident a b c d r : Nat) (chunk : List Nat) :
    packetTotal (ident :: a :: b :: c :: d :: r :: chunk) = c * 256 + d := by
  simp [packetTotal, getHeader, listSlice, fromBytesBE]

theorem getPayload_explicit (ident a b c d rssi : Nat) (chunk : List Nat) :
    getPayload (ident :: a :: b :: c :: d :: rssi :: chunk) = chunk := rfl

theorem chunks_flatten (P : Nat) (hP : 0 < P) :
    ∀ (n : Nat) (d : List Nat), d.length ≤ n * P →
    ((List.range n).map (fun i => (d.drop (i * P)).take P)).flatten = d := by
  intro n
  induction n with
  | zero =>
    intro d hd
    simp at hd
    subst hd
    simp
  | succ n ih =>
    intro d hd
    rw [List.range_succ_eq_map]
    simp only [List.map_cons, List.map_map, List.flatten_cons, Nat.zero_mul,
      List.drop_zero]
    have htail : (List.range n).map ((fun i => (d.drop (i * P)).take P) ∘ Nat.succ)
        = (List.range n).map (fun i => ((d.drop P).drop (i * P)).take P) := by
      refine List.map_congr_left ?_
      intro i _
      simp only [Function.comp]
      rw [List.drop_drop]
      congr 2
      rw [Nat.succ_mul]
      omega
    rw [htail, ih (d.drop P) ?_]
    · exact List.take_append_drop P d
    · rw [List.length_drop]
      have hmul : (n + 1) * P = n * P + P := by ring
      omega

theorem ceilDiv_le (a b : Nat) (hb : 0 < b) : a ≤ ceilDiv a b * b := by
  rw [ceilDiv, Nat.mul_comm]
  have h1 := Nat.div_add_mod (a + b - 1) b
  have h2 := Nat.mod_lt (a + b - 1) hb
  omega

/-- C2: Fragmentation.  For every byte string and positive payload capacity
(with headers representable: identifier and RSSI one byte, total below
2^16), `_pack_data` produces exactly `ceil(L / P)` packets; every packet
carries the given identifier and the common total; the sequence numbers are
exactly `0 .. total-1` in order; and `_unpack_data` (sort by sequence,
concatenate payloads) reproduces the original bytes. -/
theorem pack_data_fragmentation (ident rssi payloadSize : Nat) (data : List Nat)
    (hP : 0 < payloadSize) (hid : ident < 256) (hrssi : rssi < 256)
    (htot : ceilDiv data.length payloadSize < 65536) :
    (packData ident rssi payloadSize data).length = ceilDiv data.length payloadSize
    ∧ (∀ p ∈ packData ident rssi payloadSize data,
        packetIdent p = ident
        ∧ packetTotal p = (packData ident rssi payloadSize data).length)
    ∧ (packData ident rssi payloadSize data).map packetSeq
        = List.range (packData ident rssi payloadSize data).length
    ∧ unpackData (packData ident rssi payloadSize data) = data := by
  have hlen : (packData ident rssi payloadSize data).length
      = ceilDiv data.length payloadSize := by
    simp [packData]
  have hmk : ∀ i < ceilDiv data.length payloadSize,
      toBytesBE 1 ident ++ toBytesBE 2 i
        ++ toBytesBE 2 (ceilDiv data.length payloadSize)
        ++ toBytesBE 1 rssi
        ++ (data.drop (i * payloadSize)).take payloadSize
      = ident :: i / 256 :: i % 256
        :: ceilDiv data.length payloadSize / 256
        :: ceilDiv data.length payloadSize % 256
        :: rssi :: (data.drop (i * payloadSize)).take payloadSize := by
    intro i hi
    exact packet_explicit ident i _ rssi _ hid (by omega) htot hrssi
  refine ⟨hlen, ?_, ?_, ?_⟩
  · intro p hp
    rw [packData, List.mem_map] at hp
    obtain ⟨i, hi, rfl⟩ := hp
    rw [List.mem_range] at hi
    rw [hmk i hi, hlen]
    constructor
    · rw [packetIdent_explicit]
    · rw [packetTotal_explicit]
      omega
  · rw [hlen]
    rw [packData, List.map_map]
    refine (List.map_congr_left ?_).trans (List.map_id _)
    intro i hi
    rw [List.mem_range] at hi
    simp only [Function.comp]
    rw [hmk i hi, packetSeq_explicit]
    show i / 256 * 256 + i % 256 = i
    omega
  · rw [unpackData, packData]
    have hsorted : ((List.range (ceilDiv data.length payloadSize)).map
        (fun sequenceNumber =>
          toBytesBE 1 ident ++ toBytesBE 2 sequenceNumber
            ++ toBytesBE 2 (ceilDiv data.length payloadSize)
            ++ toBytesBE 1 rssi
            ++ (data.drop (sequenceNumber * payloadSize)).take payloadSize)).Pairwise
        (fun a b => fromBytesBE (listSlice a 1 3) ≤ fromBytesBE (listSlice b 1 3)) := by
      rw [List.pairwise_map]
      refine List.Pairwise.imp_of_mem ?_ (List.pairwise_lt_range _)
      intro i j hi hj hij
      rw [List.mem_range] at hi hj
      rw [hmk i hi, hmk j hj]
      show fromBytesBE [i / 256, i % 256] ≤ fromBytesBE [j / 256, j % 256]
      rw [fromBytesBE_two, fromBytesBE_two]
      omega
    rw [sortByKey_of_sorted _ _ hsorted]
    rw [List.map_map]
    have hpay : (List.range (ceilDiv data.length payloadSize)).map
        (getPayload ∘ fun sequenceNumber =>
          toBytesBE 1 ident ++ toBytesBE 2 sequenceNumber
            ++ toBytesBE 2 (ceilDiv data.length payloadSize)
            ++ toBytesBE 1 rssi
            ++ (data.drop (sequenceNumber * payloadSize)).take payloadSize)
        = (List.range (ceilDiv data.length payloadSize)).map
          (fun i => (data.drop (i * payloadSize)).take payloadSize) := by
      refine List.map_congr_left ?_
      intro i hi
      rw [List.mem_range] at hi
      simp only [Function.comp]
      rw [hmk i hi]
      rfl
    rw [hpay]
    exact chunks_flatten payloadSize hP _ data (ceilDiv_le data.length payloadSize hP)

/-- Concrete instance of C2: a 5-byte message with payload capacity 2. -/
theorem pack_data_fragmentation_witness :
    (packData 7 3 2 [10, 20, 30, 40, 50]).length = ceilDiv 5 2
    ∧ (∀ p ∈ packData 7 3 2 [10, 20, 30, 40, 50],
        packetIdent p = 7
        ∧ packetTotal p = (packData 7 3 2 [10, 20, 30, 40, 50]).length)
    ∧ (packData 7 3 2 [10, 20, 30, 40, 50]).map packetSeq
        = List.range (packData 7 3 2 [10, 20, 30, 40, 50]).length
    ∧ unpackData (packData 7 3 2 [10, 20, 30, 40, 50]) = [10, 20, 30, 40, 50] :=
  pack_data_fragmentation 7 3 2 [10, 20, 30, 40, 50]
    (by decide) (by decide) (by decide) (by decide)

/-! ### Listening (`PacketManager.listen`)

The loop is driven by what it can observe per iteration: the wall-clock guard
`time.time() - start_time > timeout` firing, or `radio.receive` returning a
packet / nothing / raising.  A finite trace models one listen call; a trace
exhausted mid-listen is `pending` (the real loop keeps polling and, since
wall-clock time only grows, eventually hits the timeout guard). -/

/-- One observable iteration of the listen loop. -/
inductive LEvent
  | timeUp
  | recv (r : Option (List Nat))
  | recvRaise (e : String)
deriving DecidableEq, Repr

/-- Outcome of running the listen loop over a finite trace. -/
inductive RunRes
  | done (r : Except String (Option (List Nat)))
  | pending (acc : List (List Nat))
deriving Repr

/-- The `PacketManager.listen` loop.  On timeout return `None`; skip empty
receives; a packet whose identifier differs from the first accepted packet is
skipped (cross-talk); an accepted packet is appended and, when the current
packet declares a total equal to the accumulated count, the reassembled data
is returned; an exception from `radio.receive` escapes uncaught. -/
def listenRun (acc : List (List Nat)) : List LEvent → RunRes
  | [] => .pending acc
  | .timeUp :: _ => .done (.ok none)
  | .recvRaise e :: _ => .done (.error e)
  | .recv none :: rest => listenRun acc rest
  | .recv (some packet) :: rest =>
    if acc ≠ [] ∧ packetIdent packet ≠ packetIdent (acc.headD []) then
      listenRun acc rest
    else
      if packetTotal packet = (acc ++ [packet]).length then
        .done (.ok (some (unpackData (acc ++ [packet]))))
      else listenRun (acc ++ [packet]) rest

/-- `PacketManager.listen` over a trace (a `pending` trace is an unfinished
observation; the call itself would poll on and time out, returning `None`). -/
def pmListen (events : List LEvent) : Except String (Option (List Nat)) :=
  match listenRun [] events with
  | .done r => r
  | .pending _ => .ok none

theorem listenRun_append (acc : List (List Nat)) (xs ys : List LEvent) :
    listenRun acc (xs ++ ys) = match listenRun acc xs with
      | .pending acc2 => listenRun acc2 ys
      | .done r => .done r := by
  induction xs generalizing acc with
  | nil => simp [listenRun]
  | cons e rest ih =>
    cases e with
    | timeUp => simp [listenRun]
    | recvRaise e => simp [listenRun]
    | recv r =>
      cases r with
      | none =>
        simp only [List.cons_append, listenRun]
        exact ih acc
      | some packet =>
        simp only [List.cons_append, listenRun]
        split_ifs with h1 h2
        · exact ih acc
        · rfl
        · exact ih (acc ++ [packet])

theorem pmListen_cont (pre : List LEvent) (acc : List (List Nat))
    (hrun : listenRun [] pre = .pending acc) (ys : List LEvent) :
    pmListen (pre ++ ys) = (match listenRun acc ys with
      | .done r => r
      | .pending _ => Except.ok none) := by
  rw [pmListen, listenRun_append, hrun]

theorem listenRun_pending_sameId :
    ∀ (evs : List LEvent) (acc acc2 : List (List Nat)),
    (∀ p ∈ acc, packetIdent p = packetIdent (acc.headD [])) →
    listenRun acc evs = .pending acc2 →
    ∀ p ∈ acc2, packetIdent p = packetIdent (acc2.headD []) := by
  intro evs
  induction evs with
  | nil =>
    intro acc acc2 hacc h
    rw [listenRun] at h
    injection h with h2
    subst h2
    exact hacc
  | cons e rest ih =>
    intro acc acc2 hacc h
    cases e with
    | timeUp => simp [listenRun] at h
    | recvRaise e => simp [listenRun] at h
    | recv r =>
      cases r with
      | none => exact ih acc acc2 hacc (by rw [listenRun] at h; exact h)
      | some packet =>
        rw [listenRun] at h
        split_ifs at h with h1 h2
        · exact ih acc acc2 hacc h
        · refine ih (acc ++ [packet]) acc2 ?_ h
          push_neg at h1
          intro p hp
          rcases List.mem_append.mp hp with hin | hsing
          · cases acc with
            | nil => simp at hin
            | cons f t =>
              have := hacc p hin
              simpa using this
          · simp only [List.mem_singleton] at hsing
            subst hsing
            cases acc with
            | nil => simp
            | cons f t =>
              have := h1 (by simp)
              simpa using this

/-- C5: Cross-talk filtering.  If a listen call has already accepted packets
(the first of which fixed the identifier), then inserting a packet with a
different identifier anywhere in the rest of the trace changes nothing about
the result, and every packet in the reassembly buffer carries the identifier
of the first received packet. -/
theorem listen_crosstalk_filtering (pre post : List LEvent) (q : List Nat)
    (acc : List (List Nat)) (hrun : listenRun [] pre = .pending acc)
    (hne : acc ≠ []) (hq : packetIdent q ≠ packetIdent (acc.headD [])) :
    pmListen (pre ++ .recv (some q) :: post) = pmListen (pre ++ post)
    ∧ ∀ p ∈ acc, packetIdent p = packetIdent (acc.headD []) := by
  constructor
  · have hstep : listenRun acc (.recv (some q) :: post) = listenRun acc post := by
      rw [listenRun, if_pos ⟨hne, hq⟩]
    rw [pmListen_cont pre acc hrun, pmListen_cont pre acc hrun, hstep]
  · exact listenRun_pending_sameId pre [] acc (by simp) hrun

/-- Concrete instance of C5: a two-packet message interrupted by a foreign
packet with identifier 9. -/
theorem listen_crosstalk_filtering_witness :
    pmListen ([.recv (some [1, 0, 0, 0, 2, 0, 55])]
        ++ .recv (some [9, 0, 0, 0, 2, 0, 66]) :: [.recv (some [1, 0, 1, 0, 2, 0, 77])])
      = pmListen ([.recv (some [1, 0, 0, 0, 2, 0, 55])]
          ++ [.recv (some [1, 0, 1, 0, 2, 0, 77])])
    ∧ ∀ p ∈ [[1, 0, 0, 0, 2, 0, 55]],
        packetIdent p = packetIdent (([[1, 0, 0, 0, 2, 0, 55]] : List (List Nat)).headD []) :=
  listen_crosstalk_filtering [.recv (some [1, 0, 0, 0, 2, 0, 55])]
    [.recv (some [1, 0, 1, 0, 2, 0, 77])] [9, 0, 0, 0, 2, 0, 66]
    [[1, 0, 0, 0, 2, 0, 55]] (by rfl) (by decide) (by decide)

/-- C6: Listen timeout.  If the wall-clock guard fires while the loop is
still collecting (fewer than `total` packets of the accepted identifier have
arrived), `listen` returns `None`: the partial buffer is discarded, never
returned. -/
theorem listen_timeout_returns_none (pre post : List LEvent)
    (acc : List (List Nat)) (hrun : listenRun [] pre = .pending acc) :
    pmListen (pre ++ .timeUp :: post) = Except.ok none := by
  rw [pmListen_cont pre acc hrun]
  rfl

/-- Concrete instance of C6: one of two declared packets arrives, then the
timeout fires. -/
theorem listen_timeout_returns_none_witness :
    pmListen ([.recv (some [1, 0, 0, 0, 2, 0, 55])] ++ .timeUp :: []) = Except.ok none :=
  listen_timeout_returns_none [.recv (some [1, 0, 0, 0, 2, 0, 55])] []
    [[1, 0, 0, 0, 2, 0, 55]] (by rfl)

/-! ### Sending and the transport error boundary

`PacketManager.send` (no `try/except`), `BaseRadioManager.send` (whole body
in `try/except`, any exception becomes `False`), `RFM9xManager.receive`
(hardware receive in `try/except`, any exception becomes `None`).  A
fallible callee is a function into `Except String`. -/

/-- The send loop of `PacketManager.send`: each packet through
`radio.send`, whose boolean result is ignored; an exception stops the loop
and escapes. -/
def sendPacketsE (tsend : List Nat → Except String Bool) :
    List (List Nat) → Except String Unit
  | [] => .ok ()
  | p :: ps =>
    match tsend p with
    | .error e => .error e
    | .ok _ => sendPacketsE tsend ps

/-- `PacketManager.send`: returns `False` without sending when the license
is empty, otherwise packs and transmits every packet and returns `True`.
There is no exception handler: a raising transport propagates. -/
def pmSend (license : String) (tsend : List Nat → Except String Bool)
    (ident rssi payloadSize : Nat) (data : List Nat) : Except String Bool :=
  if license = "" then .ok false
  else
    match sendPacketsE tsend (packData ident rssi payloadSize data) with
    | .error e => .error e
    | .ok () => .ok true

/-- `BaseRadioManager.send`: license check, `_send_internal`, and the result
check all run inside `try/except Exception`; any exception is caught and the
method returns `False`. -/
def baseRadioSend (license : String) (sendInternal : List Nat → Except String Bool)
    (data : List Nat) : Bool :=
  match
    (if license = "" then Except.ok false
     else
       match sendInternal data with
       | .error e => .error e
       | .ok sent => if sent then Except.ok true else Except.ok false : Except String Bool)
  with
  | .ok b => b
  | .error _ => false

/-- `RFM9xManager.receive`: the hardware receive runs inside `try/except`;
an exception is caught and the method returns `None`. -/
def rfm9xReceive (hwReceive : Except String (Option (List Nat))) :
    Option (List Nat) :=
  match hwReceive with
  | .error _ => none
  | .ok none => none
  | .ok (some msg) => some msg

/-- C7 (counterexample): the Packet Framer itself does not contain transport
exceptions.  With a transport whose send raises, `PacketManager.send`
propagates the exception instead of returning a boolean failure, and with a
receive that raises, `PacketManager.listen` propagates it instead of
yielding an empty result. -/
theorem transport_error_containment_counterexample :
    pmSend "LICENSE" (fun _ => .error "radio fault") 1 0 10 [42]
      = .error "radio fault"
    ∧ pmListen [.recvRaise "radio fault"] = .error "radio fault" := by
  constructor
  · rfl
  · rfl

/-- C7 (amended): transport-exception containment lives one layer down, in
the radio manager, not in the Packet Framer.  `BaseRadioManager.send`
converts any exception of the hardware send into `False` and
`RFM9xManager.receive` converts any exception of the hardware receive into
`None`; an exception raised by the Transport object itself propagates out of
both `PacketManager.send` and `PacketManager.listen`. -/
theorem transport_error_containment_amended (e license : String)
    (data : List Nat) (ident rssi payloadSize : Nat) (pre post : List LEvent)
    (acc : List (List Nat))
    (hlic : license ≠ "") (hdata : data ≠ []) (hP : 0 < payloadSize)
    (hrun : listenRun [] pre = .pending acc) :
    baseRadioSend license (fun _ => .error e) data = false
    ∧ rfm9xReceive (.error e) = none
    ∧ pmSend license (fun _ => .error e) ident rssi payloadSize data = .error e
    ∧ pmListen (pre ++ .recvRaise e :: post) = .error e := by
  refine ⟨?_, rfl, ?_, ?_⟩
  · rw [baseRadioSend, if_neg hlic]
  · have htot : 1 ≤ ceilDiv data.length payloadSize := by
      rw [ceilDiv, Nat.le_div_iff_mul_le hP]
      have : 1 ≤ data.length := List.length_pos.mpr hdata
      omega
    obtain ⟨p, ps, hcons⟩ : ∃ p ps, packData ident rssi payloadSize data = p :: ps := by
      have : (packData ident rssi payloadSize data).length
          = ceilDiv data.length payloadSize := by simp [packData]
      rcases hx : packData ident rssi payloadSize data with _ | ⟨p, ps⟩
      · rw [hx] at this
        simp at this
        omega
      · exact ⟨p, ps, rfl⟩
    rw [pmSend, if_neg hlic, hcons]
    rfl
  · rw [pmListen_cont pre acc hrun]
    rfl

/-- Concrete instance of C7 (amended). -/
theorem transport_error_containment_amended_witness :
    baseRadioSend "LICENSE" (fun _ => .error "radio fault") [42] = false
    ∧ rfm9xReceive (.error "radio fault") = none
    ∧ pmSend "LICENSE" (fun _ => .error "radio fault") 1 0 10 [42]
        = .error "radio fault"
    ∧ pmListen ([] ++ .recvRaise "radio fault" :: []) = .error "radio fault" :=
  transport_error_containment_amended "radio fault" "LICENSE" [42] 1 0 10 [] [] []
    (by decide) (by decide) (by decide) (by rfl)

/-! ## Command protocol (`cdh.py`)

`listen_for_commands` after a message has been reassembled and JSON-parsed:
the envelope is a partial map of the four fields.  Each radio response is a
`Sent` value: `raw` carries the exact payload text handed to
`packet_manager.send` (the acknowledgement is the literal `"ACK"` of
`send_acknowledgement`); the no-command reply interpolates the whole
message dict, modelled by carrying the message.  `random.choice` over the
joke list is modelled by an index in the configuration, and the
`ValueError` `update_config` may raise by an optional error text. -/

/-- The configuration surface `CommandDataHandler` reads. -/
structure CdhConfig where
  super_secret_code : String
  cubesat_name : String
  jokes : List String
  jokePick : Nat
  modulationError : Option String

/-- A parsed command envelope (fields absent from the JSON are `none`). -/
structure CmdMsg where
  password : Option String
  name : Option String
  command : Option String
  args : Option (List String)
deriving DecidableEq, Repr

/-- One payload handed to `packet_manager.send` during command handling. -/
inductive Sent
  | raw (payload : String)
  | noCommandFound (msg : CmdMsg)
deriving DecidableEq, Repr

/-- `CommandDataHandler.command_reset`. -/
def commandReset : String := "reset"

/-- `CommandDataHandler.command_change_radio_modulation`. -/
def commandChangeRadioModulation : String := "change_radio_modulation"

/-- `CommandDataHandler.command_send_joke`. -/
def commandSendJoke : String := "send_joke"

/-- `CommandDataHandler.send_joke`. -/
def sendJoke (cfg : CdhConfig) : List Sent :=
  [.raw (cfg.jokes.getD cfg.jokePick "")]

/-- `CommandDataHandler.change_radio_modulation`. -/
def changeRadioModulation (cfg : CdhConfig) (args : List String) : List Sent :=
  if args.length < 1 then
    [.raw "No modulation specified. Please provide a modulation type."]
  else
    match cfg.modulationError with
    | none => [.raw ("Radio modulation changed: " ++ args.getD 0 "")]
    | some err => [.raw ("Failed to change radio modulation: " ++ err)]

/-- `CommandDataHandler.reset` (sends a farewell, then the microcontroller
resets and the call never returns). -/
def resetSends : List Sent := [.raw "Resetting satellite"]

/-- `CommandDataHandler.listen_for_commands` from the parsed envelope on:
password check, name check, command presence, acknowledgement, dispatch. -/
def listenForCommands (cfg : CdhConfig) (msg : CmdMsg) : List Sent :=
  if msg.password ≠ some cfg.super_secret_code then []
  else if msg.name ≠ some cfg.cubesat_name then []
  else
    match msg.command with
    | none => [.noCommandFound msg]
    | some cmd =>
      .raw "ACK" ::
        (if cmd = commandReset then resetSends
         else if cmd = commandChangeRadioModulation then
           changeRadioModulation cfg (msg.args.getD [])
         else if cmd = commandSendJoke then sendJoke cfg
         else [.raw ("Unknown command received: " ++ cmd)])

/-- C8: Authentication silence.  An envelope whose password differs from the
configured secret, or whose name differs from the configured satellite name,
produces zero sends, whatever its command field. -/
theorem auth_mismatch_silent_drop (cfg : CdhConfig) (msg : CmdMsg)
    (h : msg.password ≠ some cfg.super_secret_code
      ∨ msg.name ≠ some cfg.cubesat_name) :
    listenForCommands cfg msg = [] := by
  rcases h with h | h
  · rw [listenForCommands, if_pos h]
  · by_cases hp : msg.password ≠ some cfg.super_secret_code
    · rw [listenForCommands, if_pos hp]
    · rw [listenForCommands, if_neg hp, if_pos h]

/-- Concrete instance of C8: wrong password, correct name and command. -/
theorem auth_mismatch_silent_drop_witness :
    listenForCommands ⟨"pw", "sat", ["j"], 0, none⟩
      ⟨some "wrong", some "sat", some "send_joke", none⟩ = [] :=
  auth_mismatch_silent_drop ⟨"pw", "sat", ["j"], 0, none⟩
    ⟨some "wrong", some "sat", some "send_joke", none⟩ (by left; decide)

/-- C9: Unknown-command dispatch.  An authenticated envelope whose command is
none of `reset`, `change_radio_modulation`, `send_joke` gets exactly the ACK
followed by one response reading `Unknown command received: <command>`. -/
theorem unknown_command_response (cfg : CdhConfig) (msg : CmdMsg) (cmd : String)
    (hp : msg.password = some cfg.super_secret_code)
    (hn : msg.name = some cfg.cubesat_name)
    (hc : msg.command = some cmd)
    (h1 : cmd ≠ commandReset) (h2 : cmd ≠ commandChangeRadioModulation)
    (h3 : cmd ≠ commandSendJoke) :
    listenForCommands cfg msg
      = [.raw "ACK", .raw ("Unknown command received: " ++ cmd)] := by
  simp [listenForCommands, hp, hn, hc, h1, h2, h3]

/-- Concrete instance of C9: the spec example `launch_missiles`. -/
theorem unknown_command_response_witness :
    listenForCommands ⟨"pw", "sat", ["j"], 0, none⟩
      ⟨some "pw", some "sat", some "launch_missiles", none⟩
      = [.raw "ACK", .raw ("Unknown command received: " ++ "launch_missiles")] :=
  unknown_command_response ⟨"pw", "sat", ["j"], 0, none⟩
    ⟨some "pw", some "sat", some "launch_missiles", none⟩ "launch_missiles"
    rfl rfl rfl (by decide) (by decide) (by decide)

end GroundStation
